import Mathlib

/-!
Verification development for the sevenbridges-go client library.

The definitions below are shallow embeddings of the Go source:

* string-to-integer parsing models `strconv.Atoi` / `strconv.ParseInt`
  (base 10, 64-bit) as used by `pagination.go` and `response.go`;
* `intQueryField`, `Link.Limit`, `Link.Offset`, `IsZero`,
  `generateListOptions`, `NextPage`, `PrevPage`, `HasNextPage`,
  `HasPrevPage` embed `pagination.go`;
* `getRateLimit`, `getTotalMatchingQuery`, `NewPage`, `NewResponse`
  embed `response.go`;
* `getParts`, `generateChunks`, `getNumberOfChunks` embed the upload and
  download range planners, with a faithful model of IEEE binary64
  rounding for the `float64` arithmetic in `getNumberOfChunks`;
* `processPartStep`, `uploadReportStep`, `downloadChunkStep`,
  `downloadReportStep`, `uploadWorkerCount`, `downloadWorkerCount`,
  `Upload`, `downloadPlan` embed the per-item behaviour of the transfer
  workers and retry coordinators of `api.go` and the download service.

Machine integers are modelled as `Nat`/`Int`: every quantity concerned
(file sizes, part sizes, counters) is nonnegative and far below the
`int64` overflow threshold in all statements proved here.
-/

namespace SB

/-! ### Model of strconv.Atoi / strconv.ParseInt (base 10, bit size 64)

Go `strconv.ParseInt(s, 10, 64)` accepts an optional leading sign
followed by at least one decimal digit; any other character is a syntax
error, reported with value 0.  An out-of-range value is reported with
the value clamped to the `int64` range together with a range error.
`strconv.Atoi` returns both the value and the error; the callers in this
repository frequently discard the error, which is what `goAtoi` models. -/

/-- Accumulate decimal digits; `none` on the first non-digit character. -/
def parseDigitsAux : List Char → ℕ → Option ℕ
  | [], acc => some acc
  | c :: cs, acc =>
    if c.isDigit then parseDigitsAux cs (acc * 10 + (c.toNat - 48)) else none

/-- Unsigned tail of the parse: at least one character, all digits. -/
def goParseDigits (neg : Bool) : List Char → ℤ × Bool
  | [] => (0, true)
  | d :: ds =>
    match parseDigitsAux (d :: ds) 0 with
    | none => (0, true)
    | some n =>
      if neg then
        if n ≤ 2 ^ 63 then (-(n : ℤ), false) else (-(2 ^ 63), true)
      else
        if n ≤ 2 ^ 63 - 1 then ((n : ℤ), false) else (2 ^ 63 - 1, true)

/-- Core of the parse on the character list: optional sign first. -/
def goParseInt64Chars : List Char → ℤ × Bool
  | [] => (0, true)
  | c :: cs =>
    if c = '-' then goParseDigits true cs
    else if c = '+' then goParseDigits false cs
    else goParseDigits false (c :: cs)

/-- Model of `strconv.ParseInt(s, 10, 64)`: the returned value and an
error flag.  Syntax errors yield `(0, true)`; out-of-range values yield
the clamped `int64` bound and `true`. -/
def goParseInt64 (s : String) : ℤ × Bool := goParseInt64Chars s.data

/-- Model of `val, _ := strconv.Atoi(s)`: the parse error is discarded. -/
def goAtoi (s : String) : ℤ := (goParseInt64 s).1

/-! ### Pagination (pagination.go)

The `net/url` parser is an external collaborator: a `Link.Href` string
is represented by the outcome of `url.Parse` on it, either `none`
(unparsable) or the multiset of query parameters the parsed URL carries.
`queryGet` models `u.Query().Get(field)`, which returns the first value
associated with the key and the empty string when the key is absent. -/

/-- Parse outcome of a URL: its query parameters in order. -/
structure ParsedURL where
  query : List (String × String)
deriving DecidableEq

/-- Model of `u.Query().Get(field)`: first value of the key, else "". -/
def queryGet (u : ParsedURL) (field : String) : String :=
  match u.query.find? (fun kv => kv.1 == field) with
  | some kv => kv.2
  | none => ""

/-- Model of pagination.go `Link`; `href` is the `url.Parse` outcome of
the `Href` string. -/
structure Link where
  href : Option ParsedURL
  rel : String
deriving DecidableEq

/-- Model of `Link.intQueryField` (pagination.go:19-26): 0 when the URL
does not parse, otherwise `strconv.Atoi` of the query field with the
error ignored. -/
def intQueryField (l : Link) (field : String) : ℤ :=
  match l.href with
  | none => 0
  | some u => goAtoi (queryGet u field)

/-- Model of `Link.Limit` (pagination.go:29-31). -/
def Link.Limit (l : Link) : ℤ := intQueryField l "limit"

/-- Model of `Link.Offset` (pagination.go:34-36). -/
def Link.Offset (l : Link) : ℤ := intQueryField l "offset"

/-- Model of pagination.go `ListOptions` (the `Fields` member plays no
role in the embedded functions). -/
structure ListOptions where
  limit : ℤ
  offset : ℤ
deriving DecidableEq

/-- Model of `ListOptions.IsZero` (pagination.go:48-50); the argument is
an `Option` because the Go receiver is a possibly-nil pointer. -/
def IsZero (lo : Option ListOptions) : Bool :=
  match lo with
  | none => true
  | some l => l.limit == 0 && l.offset == 0

/-- Model of pagination.go `Page`: the total-matching-query count and
the `rel ↦ Link` map (keys unique, as in a Go map). -/
structure Page where
  totalMatchingQuery : ℤ
  links : List (String × Link)
deriving DecidableEq

/-- Lookup in the model of the Go `map[string]*Link`. -/
def lookupRel (links : List (String × Link)) (rel : String) : Option Link :=
  (links.find? (fun kv => kv.1 == rel)).map (fun kv => kv.2)

/-- Model of `Page.generateListOptions` (pagination.go:84-95). -/
def generateListOptions (p : Option Page) (rel : String) : ListOptions :=
  match p with
  | none => ⟨0, 0⟩
  | some pg =>
    match lookupRel pg.links rel with
    | some l => ⟨l.Limit, l.Offset⟩
    | none => ⟨0, 0⟩

/-- Model of `Page.NextPage` (pagination.go:99-101). -/
def NextPage (p : Option Page) : ListOptions := generateListOptions p "next"

/-- Model of `Page.PrevPage` (pagination.go:105-107). -/
def PrevPage (p : Option Page) : ListOptions := generateListOptions p "prev"

/-- Model of `Page.HasNextPage` (pagination.go:110-112). -/
def HasNextPage (p : Option Page) : Bool := !(IsZero (some (NextPage p)))

/-- Model of `Page.HasPrevPage` (pagination.go:115-117). -/
def HasPrevPage (p : Option Page) : Bool := !(IsZero (some (PrevPage p)))

/-! ### Response construction (response.go)

HTTP headers are modelled as an association list; `hGet` models
`http.Header.Get` (first value of the key, "" when absent).  The `Link`
headers are parsed by an external library, so `NewPage` receives the
parsed relation map directly.  Errors are modelled as `Option String`. -/

/-- Header map model. -/
abbrev Headers := List (String × String)

/-- Model of `http.Header.Get`. -/
def hGet (h : Headers) (key : String) : String :=
  match h.find? (fun kv => kv.1 == key) with
  | some kv => kv.2
  | none => ""

/-- Model of response.go `Rate`.  `reset` is `none` for the zero
`Timestamp` and `some v` for `time.Unix(v, 0)`. -/
structure Rate where
  limit : ℤ
  remaining : ℤ
  reset : Option ℤ
deriving DecidableEq

/-- Model of `getRateLimit` (response.go:55-76), with its early returns:
a present but unparsable limit or remaining header is an error; the
reset header is parsed with a shadowed error variable, so an invalid or
zero reset value is silently ignored. -/
def getRateLimit (h : Headers) : Rate × Option String :=
  let limitS := hGet h "X-RateLimit-Limit"
  let limitP := goParseInt64 limitS
  let r1 : Rate := ⟨if limitS = "" then 0 else limitP.1, 0, none⟩
  if limitS ≠ "" ∧ limitP.2 then (r1, some "rate limit parse") else
  let remS := hGet h "X-RateLimit-Remaining"
  let remP := goParseInt64 remS
  let r2 : Rate := { r1 with remaining := if remS = "" then 0 else remP.1 }
  if remS ≠ "" ∧ remP.2 then (r2, some "rate remaining parse") else
  let resetS := hGet h "X-RateLimit-Reset"
  let resetP := goParseInt64 resetS
  let r3 : Rate :=
    if resetS ≠ "" ∧ resetP.1 ≠ 0 ∧ resetP.2 = false
    then { r2 with reset := some resetP.1 } else r2
  (r3, none)

/-- Model of `getTotalMatchingQuery` (response.go:80-85). -/
def getTotalMatchingQuery (h : Headers) : ℤ × Option String :=
  let s := hGet h "X-Total-Matching-Query"
  if s = "" then (0, none)
  else ((goParseInt64 s).1, if (goParseInt64 s).2 then some "total matching query parse" else none)

/-- Model of `NewPage` (pagination.go:62-78): the total-matching-query
header is parsed with the error ignored; the links come from the
external `Link`-header parser. -/
def NewPage (h : Headers) (links : List (String × Link)) : Page :=
  { totalMatchingQuery :=
      if hGet h "X-Total-Matching-Query" = "" then 0
      else goAtoi (hGet h "X-Total-Matching-Query")
    links := links }

/-- Model of response.go `Response`: the embedded `*Page` is always set
by the constructor, the embedded `*Rate` only after a successful
`getRateLimit`.  The embedded `TotalMatchingQuery` of the page is the
field the constructor overwrites on success. -/
structure Response where
  page : Page
  rate : Option Rate
deriving DecidableEq

/-- Model of `NewResponse` (response.go:33-51).  The first component is
the returned pointer (always `some`), the second the returned error. -/
def NewResponse (h : Headers) (links : List (String × Link)) :
    Option Response × Option String :=
  let r0 : Response := { page := NewPage h links, rate := none }
  match getRateLimit h with
  | (_, some e) => (some r0, some e)
  | (rate, none) =>
    let r1 : Response := { r0 with rate := some rate }
    match getTotalMatchingQuery h with
    | (_, some e) => (some r1, some e)
    | (tmq, none) =>
      (some { r1 with page := { r1.page with totalMatchingQuery := tmq } }, none)

/-! ### Range planners

`getParts` (api.go:300-319) plans half-open upload ranges; the loop
variable `end` equals `start` at the top of every iteration after the
first (both start at 0 and the loop sets `start = end`), so one position
variable models both.  The recursion is fuelled: `fileSize` iterations
suffice whenever `partSize > 0`, because every iteration advances the
position by at least one byte; for `partSize = 0` the Go loop diverges
and the fuelled model merely truncates, a case excluded by every
statement below.

`generateChunks` (download, src/unnamed/part_002:77-89) runs exactly
`totalParts` iterations, so it is structural in `totalParts`.  Note that
its initial `end` is computed from the package constant `PartSize`, not
from the `partSize` argument, and later ends are `start + partSize + 1`
clamped to `totalSize`, exactly as in the source. -/

/-- Number of bytes in a kilobyte (src/unnamed/part_002:21). -/
def KB : ℕ := 1024

/-- Number of bytes in a megabyte (src/unnamed/part_002:23). -/
def MB : ℕ := 1024 * KB

/-- Default part size, 10 MB (src/unnamed/part_002:30). -/
def PartSize : ℕ := 10 * MB

/-- Model of the upload `part` struct (api.go:144-150). -/
structure part where
  id : ℕ
  startByte : ℕ
  endByte : ℕ
  etag : String
  error : Option String
deriving DecidableEq

/-- Fuelled model of the `getParts` loop (api.go:300-319) over unbounded
naturals; `pos` is the common value of `start` and `end` at the top of
an iteration.  The source computes `end = start + partSize` in wrapping
`int64` arithmetic, so this model is exact only on the overflow-free
domain where every reachable `start + partSize` stays below `2^63`
(guaranteed by `fileSize + partSize ≤ 2^63`); `getPartsWrapAux` below is
the wrap-aware variant and the two are proved to coincide on that
domain. -/
def getPartsAux (fileSize partSize : ℕ) : ℕ → ℕ → ℕ → List part
  | 0, _, _ => []
  | fuel + 1, pos, count =>
    if pos < fileSize then
      ⟨count, pos, min (pos + partSize) fileSize, "", none⟩ ::
        getPartsAux fileSize partSize fuel (min (pos + partSize) fileSize) (count + 1)
    else []

/-- Model of `getParts` (api.go:300-319): 1-based ids, half-open ranges
(overflow-free reading, see `getPartsAux`). -/
def getParts (fileSize partSize : ℕ) : List part :=
  getPartsAux fileSize partSize fileSize 0 1

/-- Two's-complement wraparound of Go `int64` arithmetic: reduce into
`[-2^63, 2^63)`. -/
def wrap64 (x : ℤ) : ℤ := (x + 2 ^ 63) % 2 ^ 64 - 2 ^ 63

/-- Variant of the `part` struct with `int64`-valued byte bounds, for
the wrap-aware planner model. -/
structure ipart where
  id : ℤ
  startByte : ℤ
  endByte : ℤ
  etag : String
  error : Option String
deriving DecidableEq

/-- Embedding of an overflow-free `part` into the `int64`-valued form. -/
def castPart (q : part) : ipart :=
  ⟨(q.id : ℤ), (q.startByte : ℤ), (q.endByte : ℤ), q.etag, q.error⟩

/-- Wrap-aware model of the `getParts` loop (api.go:300-319): the bounds
are `int64` values, `end = start + partSize` wraps via `wrap64`, and the
`end > fileSize` clamp applies only when the (possibly wrapped) sum
exceeds `fileSize`, exactly as in the source.  On overflow the source
loop never terminates, so the model is fuelled: it returns the parts
emitted in the first `fuel` iterations (a prefix of the emission) and
whether the loop has terminated within them. -/
def getPartsWrapAux (fileSize partSize : ℤ) : ℕ → ℤ → ℤ → List ipart × Bool
  | 0, pos, _ => ([], if pos < fileSize then false else true)
  | fuel + 1, pos, count =>
    if pos < fileSize then
      let e2 := wrap64 (pos + partSize)
      let e3 := if fileSize < e2 then fileSize else e2
      let r := getPartsWrapAux fileSize partSize fuel e3 (count + 1)
      (⟨count, pos, e3, "", none⟩ :: r.1, r.2)
    else ([], true)

/-- Wrap-aware `getParts` with an explicit iteration budget. -/
def getPartsWrap (fileSize partSize : ℤ) (fuel : ℕ) : List ipart × Bool :=
  getPartsWrapAux fileSize partSize fuel 0 1

/-- Model of the download `chunk` struct (src/unnamed/part_002:66-71). -/
structure chunk where
  startByte : ℕ
  endByte : ℕ
  partNumber : ℕ
  error : Option String
deriving DecidableEq

/-- Model of the `generateChunks` loop body (src/unnamed/part_002:81-88):
after emitting a chunk, `start` becomes `end + 1` and `end` becomes
`start + partSize + 1` clamped to `totalSize`. -/
def generateChunksAux (totalSize partSize : ℕ) : ℕ → ℕ → ℕ → ℕ → List chunk
  | 0, _, _, _ => []
  | k + 1, start, e, i =>
    ⟨start, e, i, none⟩ ::
      generateChunksAux totalSize partSize k (e + 1)
        (min (e + 1 + partSize + 1) totalSize) (i + 1)

/-- Model of `generateChunks` (src/unnamed/part_002:77-89): the initial
inclusive end is the constant `PartSize - 1`, regardless of the
`partSize` argument. -/
def generateChunks (totalParts totalSize partSize : ℕ) : List chunk :=
  generateChunksAux totalSize partSize totalParts 0 (PartSize - 1) 0

/-! ### IEEE binary64 model for getNumberOfChunks

`getNumberOfChunks` (src/unnamed/part_002:73-75) computes
`int64(math.Ceil(float64(totalSize) / float64(partSize)))`.  The
`float64` arithmetic is modelled exactly over ℚ: `rnd` is IEEE
round-to-nearest, ties-to-even, at 53 significand bits, defined for the
normal exponent range (neither overflow nor subnormals can arise from
the magnitudes involved, which the fuelled exponent search covers).
`math.Ceil` is exact on binary64 values and the final `int64` conversion
of the integral result is exact in range, so both are modelled by the
rational ceiling and floor. -/

/-- Largest number of doublings of `d` that stays at or below `n`:
computes `e` with `d * 2^e ≤ n < d * 2^(e+1)` given enough fuel. -/
def expUpAux (n : ℕ) : ℕ → ℕ → ℕ
  | _, 0 => 0
  | d, fuel + 1 => if 2 * d ≤ n then expUpAux n (2 * d) fuel + 1 else 0

/-- Least number of doublings of `n` needed to reach `d`: computes `m`
with `d ≤ n * 2^m < 2 * d` given `n < d` and enough fuel. -/
def expDownAux (d : ℕ) : ℕ → ℕ → ℕ
  | _, 0 => 0
  | n, fuel + 1 => if n < d then expDownAux d (2 * n) fuel + 1 else 0

/-- Binary exponent of a positive rational: the integer `e` with
`2^e ≤ q < 2^(e+1)`; junk value 0 for `q ≤ 0`. -/
def qexp (q : ℚ) : ℤ :=
  if q.num ≤ 0 then 0
  else
    let n := q.num.toNat
    let d := q.den
    if d ≤ n then (expUpAux n d n : ℤ) else -(expDownAux d n d : ℤ)

/-- Round a rational to an integer, nearest, ties to even. -/
def roundHTE (x : ℚ) : ℤ :=
  if x - ⌊x⌋ < 1 / 2 then ⌊x⌋
  else if (1 : ℚ) / 2 < x - ⌊x⌋ then ⌊x⌋ + 1
  else if ⌊x⌋ % 2 = 0 then ⌊x⌋ else ⌊x⌋ + 1

/-- IEEE binary64 round-to-nearest-even of a nonnegative rational in the
normal range: scale into the 53-bit significand window at the binary
exponent of `q`, round ties-to-even, and scale back. -/
def rnd (q : ℚ) : ℚ :=
  if q ≤ 0 then 0
  else ((roundHTE (q * 2 ^ ((52 : ℤ) - qexp q)) : ℚ)) * 2 ^ (qexp q - 52)

/-- Model of the Go conversion `float64(n)` for a nonnegative integer. -/
def float64 (n : ℕ) : ℚ := rnd (n : ℚ)

/-- Model of binary64 division: one rounding of the exact quotient.  The
divisor is never zero in any statement below (Go would produce an
infinity or NaN there); the model returns junk 0. -/
def fdiv (a b : ℚ) : ℚ := if b = 0 then 0 else rnd (a / b)

/-- Model of `math.Ceil`, exact on binary64 values of this range. -/
def mathCeil (x : ℚ) : ℚ := (⌈x⌉ : ℚ)

/-- Model of the Go conversion `int64(x)`: truncation toward zero, which
is the floor for the nonnegative values arising here. -/
def toInt64 (x : ℚ) : ℤ := ⌊x⌋

/-- Model of `getNumberOfChunks` (src/unnamed/part_002:73-75). -/
def getNumberOfChunks (totalSize partSize : ℕ) : ℤ :=
  toInt64 (mathCeil (fdiv (float64 totalSize) (float64 partSize)))

/-! ### Worker pool, retry coordinator and protocol drivers

Per-item step functions embed the loop bodies of the workers and of the
two retry-coordinator goroutines.  Channel sends are modelled by
appending to a queue list; `sync.WaitGroup.Done` calls are counted.
Network and filesystem outcomes are supplied as parameters. -/

/-- Model of `intMin` (api.go:267-272). -/
def intMin (a b : ℤ) : ℤ := if a < b then a else b

/-- Number of upload workers spawned (api.go:245-247): the loop runs
`intMin(totalParts, 8)` times. -/
def uploadWorkerCount (totalParts : ℤ) : ℤ := intMin totalParts 8

/-- Number of download workers spawned (src/unnamed/part_002:110-112):
the loop bound is the literal 16, independent of the chunk count. -/
def downloadWorkerCount (_totalChunks : ℤ) : ℤ := 16

/-- One iteration of the upload retry-coordinator loop (api.go:248-258)
on a received result `p`: an errored result is resubmitted with the
error cleared and the outstanding count untouched; a successful result
decrements the outstanding count.  Returns the new work queue and the
new outstanding count. -/
def uploadReportStep (p : part) (queue : List part) (outstanding : ℕ) :
    List part × ℕ :=
  if p.error.isSome then (queue ++ [{ p with error := none }], outstanding)
  else (queue, outstanding - 1)

/-- One iteration of the download worker loop (src/unnamed/part_002:133-157)
on a dequeued chunk: `openRes` is the outcome of `os.OpenFile` on the
destination, `getRes` the outcome of the ranged GET.  Returns the
results published on the report channel and the number of `wg.Done`
calls performed.  When the open fails the worker publishes the errored
chunk and continues without `wg.Done`; otherwise it publishes the chunk,
errored or not, and always calls `wg.Done`. -/
def downloadChunkStep (c : chunk) (openRes getRes : Option String) :
    List chunk × ℕ :=
  match openRes with
  | some e => ([{ c with error := some e }], 0)
  | none =>
    match getRes with
    | some e => ([{ c with error := some e }], 1)
    | none => ([c], 1)

/-- One iteration of the download retry-coordinator loop
(src/unnamed/part_002:114-124) on a received result: an errored chunk is
resubmitted with the error cleared; a successful chunk is dropped (the
empty else branch).  The coordinator never touches the wait group. -/
def downloadReportStep (c : chunk) (queue : List chunk) : List chunk :=
  if c.error.isSome then queue ++ [{ c with error := none }] else queue

/-- One iteration of the upload worker loop (api.go:274-298) on a
dequeued part.  `initRes` is the outcome of `partUploadInit`,
`uploadRes` of `partUpload` (carrying the ETag on success), `reportRes`
of `partReportUploaded`.  In the source there is no `continue` after an
error is reported, so all three sub-steps are attempted unconditionally
and the part is published once per failed sub-step plus once
unconditionally at the end (in Go all publications alias one pointer;
the model records the value at each send).  Returns the published
results in order and the list of sub-steps attempted. -/
def processPartStep (p : part) (initRes : Option String)
    (uploadRes : Except String String) (reportRes : Option String) :
    List part × List String :=
  let s1 : part × List part :=
    match initRes with
    | some e => (⟨p.id, p.startByte, p.endByte, p.etag, some e⟩,
        [⟨p.id, p.startByte, p.endByte, p.etag, some e⟩])
    | none => (p, [])
  let s2 : part × List part :=
    match uploadRes with
    | .error e => ({ s1.1 with error := some e }, s1.2 ++ [{ s1.1 with error := some e }])
    | .ok tag => ({ s1.1 with etag := tag }, s1.2)
  let s3 : part × List part :=
    match reportRes with
    | some e => ({ s2.1 with error := some e }, s2.2 ++ [{ s2.1 with error := some e }])
    | none => (s2.1, s2.2)
  (s3.2 ++ [s3.1], ["partUploadInit", "partUpload", "partReportUploaded"])

/-- Chunk plan computed by `Download` (src/unnamed/part_002:102-107):
the chunk count comes from `getNumberOfChunks` at the default part size
and the generator is run with that count. -/
def downloadPlan (size : ℕ) : List chunk :=
  generateChunks (getNumberOfChunks size PartSize).toNat size PartSize

/-- Number of times `Download` opens (and, with `O_CREATE`, creates) the
destination file: exactly one `os.OpenFile` per dequeued chunk
(src/unnamed/part_002:134); no open of the destination exists outside
the per-chunk worker loop. -/
def downloadDstOpenCount (size : ℕ) : ℕ := (downloadPlan size).length

/-- Number of ranged GET requests issued by `Download` when every open
and fetch succeeds at first attempt: one per planned chunk
(src/unnamed/part_002:141-148). -/
def downloadRangedGetCount (size : ℕ) : ℕ := (downloadPlan size).length

/-- Result of `os.Stat` on the local file, as used by `Upload`. -/
structure FileStat where
  size : ℕ
deriving DecidableEq

/-- The part of `UploadInitResponse` (api.go:105-113) that the planner
consumes: the server-assigned part size. -/
structure UploadInitResponse where
  partSize : ℕ
deriving DecidableEq

/-- Network requests issued by `Upload`. -/
inductive NetCall where
  | initUpload
  | partURL (id : ℕ)
  | partPut (id : ℕ)
  | partReport (id : ℕ)
  | finalize
deriving DecidableEq

/-- Control-flow model of `Upload` (api.go:208-265): `os.Stat` runs
before any network interaction and a stat failure returns immediately;
otherwise the session-init call is issued, and on its success the parts
are planned and processed (three network sub-steps per part, finalize
last).  The trace lists the network calls of the all-success execution,
per-part order as in `processPart`; retries and interleaving are
abstracted.  Returns the result of `Upload` and the network calls
issued. -/
def Upload (statResult : Except String FileStat)
    (initResult : Except String UploadInitResponse) :
    Except String Unit × List NetCall :=
  match statResult with
  | .error e => (.error e, [])
  | .ok stat =>
    match initResult with
    | .error e => (.error e, [.initUpload])
    | .ok info =>
      let parts := getParts stat.size info.partSize
      (.ok (),
        .initUpload ::
          ((parts.map fun p => [NetCall.partURL p.id, .partPut p.id, .partReport p.id]).flatten
            ++ [.finalize]))

/-! ## Helper lemmas -/

theorem goParseDigits_err_val (b : Bool) (ds : List Char)
    (h : (goParseDigits b ds).2 = true) :
    (goParseDigits b ds).1 = 0 ∨ (goParseDigits b ds).1 = 2 ^ 63 - 1 ∨
      (goParseDigits b ds).1 = -(2 ^ 63) := by
  cases ds with
  | nil => simp [goParseDigits]
  | cons d ds =>
    unfold goParseDigits at h ⊢
    cases hp : parseDigitsAux (d :: ds) 0 with
    | none => simp [hp]
    | some n =>
      simp only [hp] at h ⊢
      split_ifs at h ⊢ <;> simp_all

theorem goParseInt64Chars_err_val (cs : List Char)
    (h : (goParseInt64Chars cs).2 = true) :
    (goParseInt64Chars cs).1 = 0 ∨ (goParseInt64Chars cs).1 = 2 ^ 63 - 1 ∨
      (goParseInt64Chars cs).1 = -(2 ^ 63) := by
  cases cs with
  | nil => simp [goParseInt64Chars]
  | cons c cs =>
    unfold goParseInt64Chars at h ⊢
    by_cases h1 : c = '-'
    · simp only [h1, if_pos rfl] at h ⊢
      exact goParseDigits_err_val true cs h
    · by_cases h2 : c = '+'
      · simp only [h1, h2, if_neg, if_pos rfl, reduceIte] at h ⊢
        exact goParseDigits_err_val false cs h
      · simp only [h1, h2, reduceIte] at h ⊢
        exact goParseDigits_err_val false (c :: cs) h

theorem getRateLimit_err_iff (h : Headers) :
    ((getRateLimit h).2).isSome = true ↔
      (hGet h "X-RateLimit-Limit" ≠ "" ∧
        (goParseInt64 (hGet h "X-RateLimit-Limit")).2 = true) ∨
      (hGet h "X-RateLimit-Remaining" ≠ "" ∧
        (goParseInt64 (hGet h "X-RateLimit-Remaining")).2 = true) := by
  simp only [getRateLimit]
  split_ifs <;> simp_all

theorem getRateLimit_reset_none (h : Headers)
    (hr : (goParseInt64 (hGet h "X-RateLimit-Reset")).2 = true) :
    ((getRateLimit h).1).reset = none := by
  simp only [getRateLimit]
  split_ifs <;> simp_all

theorem getRateLimit_absent (h : Headers)
    (h1 : hGet h "X-RateLimit-Limit" = "")
    (h2 : hGet h "X-RateLimit-Remaining" = "")
    (h3 : hGet h "X-RateLimit-Reset" = "") :
    getRateLimit h = (⟨0, 0, none⟩, none) := by
  simp [getRateLimit, h1, h2, h3]

theorem getTotalMatchingQuery_err_iff (h : Headers) :
    ((getTotalMatchingQuery h).2).isSome = true ↔
      (hGet h "X-Total-Matching-Query" ≠ "" ∧
        (goParseInt64 (hGet h "X-Total-Matching-Query")).2 = true) := by
  simp only [getTotalMatchingQuery]
  split_ifs <;> simp_all

theorem NewResponse_fst_isSome (h : Headers) (links : List (String × Link)) :
    ((NewResponse h links).1).isSome = true := by
  rcases hge : getRateLimit h with ⟨rate, err⟩
  cases err with
  | some e => simp [NewResponse, hge]
  | none =>
    rcases hgt : getTotalMatchingQuery h with ⟨tmq, err2⟩
    cases err2 with
    | some e => simp [NewResponse, hge, hgt]
    | none => simp [NewResponse, hge, hgt]

theorem NewResponse_err_iff (h : Headers) (links : List (String × Link)) :
    ((NewResponse h links).2).isSome = true ↔
      (((getRateLimit h).2).isSome = true ∨
        ((getTotalMatchingQuery h).2).isSome = true) := by
  rcases hge : getRateLimit h with ⟨rate, err⟩
  cases err with
  | some e => simp [NewResponse, hge]
  | none =>
    rcases hgt : getTotalMatchingQuery h with ⟨tmq, err2⟩
    cases err2 with
    | some e => simp [NewResponse, hge, hgt]
    | none => simp [NewResponse, hge, hgt]

theorem rnd_zero : rnd 0 = 0 := by simp [rnd]

theorem getNumberOfChunks_zero (p : ℕ) : getNumberOfChunks 0 p = 0 := by
  have hf : fdiv (float64 0) (float64 p) = 0 := by
    unfold fdiv
    split_ifs with hb
    · rfl
    · have : float64 0 = 0 := by simp [float64, rnd_zero]
      rw [this, zero_div, rnd_zero]
  unfold getNumberOfChunks
  rw [hf]
  simp [mathCeil, toInt64]

theorem ceilDiv_zero_of_pos (p : ℕ) (hp : 0 < p) : (0 + p - 1) / p = 0 :=
  Nat.div_eq_of_lt (by omega)

theorem ceilDiv_succ_of_le (p x : ℕ) (hp : 0 < p) (hx : p ≤ x) :
    (x + p - 1) / p = ((x - p) + p - 1) / p + 1 := by
  have h1 : x + p - 1 = ((x - p) + p - 1) + p := by omega
  rw [h1, Nat.add_div_right _ hp]

theorem ceilDiv_one_of_le (p x : ℕ) (hp : 0 < p) (h1 : 1 ≤ x) (h2 : x ≤ p) :
    (x + p - 1) / p = 1 := by
  have h3 : x + p - 1 = (x - 1) + p := by omega
  rw [h3, Nat.add_div_right _ hp, Nat.div_eq_of_lt (by omega)]

/-- Closed form of the `getParts` loop: from position `s`, with fuel
covering the remaining bytes, the emitted parts are the
`ceil((t - s) / p)` half-open ranges of width `p` clamped to `t`. -/
theorem getPartsAux_eq (t p : ℕ) (hp : 0 < p) :
    ∀ fuel s c, t ≤ s + fuel * p →
      getPartsAux t p fuel s c =
        (List.range ((t - s + p - 1) / p)).map
          (fun k => ⟨c + k, s + k * p, min (s + (k + 1) * p) t, "", none⟩) := by
  intro fuel
  induction fuel with
  | zero =>
    intro s c hle
    have hts : t - s = 0 := by omega
    have h0 : (t - s + p - 1) / p = 0 := by
      rw [hts]
      exact Nat.div_eq_of_lt (by omega)
    simp [getPartsAux, h0]
  | succ fuel ih =>
    intro s c hle
    have hstep : (fuel + 1) * p = fuel * p + p := by ring
    rw [hstep] at hle
    by_cases hs : s < t
    · simp only [getPartsAux, if_pos hs]
      by_cases hsp : s + p ≤ t
      · have hmin : min (s + p) t = s + p := min_eq_left hsp
        rw [hmin, ih (s + p) (c + 1) (by omega)]
        have hx : p ≤ t - s := by omega
        have hts : t - (s + p) = (t - s) - p := by omega
        rw [hts, ceilDiv_succ_of_le p (t - s) hp hx, List.range_succ_eq_map,
          List.map_cons, List.map_map]
        have hhead : (⟨c + 0, s + 0 * p, min (s + (0 + 1) * p) t, "", none⟩ : part) =
            ⟨c, s, s + p, "", none⟩ := by
          simp [hmin]
        rw [hhead]
        refine congrArg (List.cons _) (List.map_congr_left ?_)
        intro k _
        have e1 : c + 1 + k = c + (k + 1) := by omega
        have e2 : s + p + k * p = s + (k + 1) * p := by ring
        have e3 : s + p + (k + 1) * p = s + (k + 1 + 1) * p := by ring
        simp [Function.comp, e1, e2, e3]
      · have htlt : t < s + p := by omega
        have hmin : min (s + p) t = t := min_eq_right (by omega)
        rw [hmin]
        have hrec : getPartsAux t p fuel t (c + 1) = [] := by
          cases fuel with
          | zero => rfl
          | succ f => simp [getPartsAux]
        rw [hrec]
        have hn : (t - s + p - 1) / p = 1 :=
          ceilDiv_one_of_le p (t - s) hp (by omega) (by omega)
        rw [hn]
        have hr1 : List.range 1 = [0] := rfl
        rw [hr1, List.map_cons, List.map_nil]
        simp [hmin]
    · simp only [getPartsAux, if_neg hs]
      have hts : t - s = 0 := by omega
      have h0 : (t - s + p - 1) / p = 0 := by
        rw [hts]
        exact Nat.div_eq_of_lt (by omega)
      simp [h0]

/-- Closed form of `getParts`. -/
theorem getParts_eq (t p : ℕ) (hp : 0 < p) :
    getParts t p =
      (List.range ((t + p - 1) / p)).map
        (fun k => ⟨1 + k, k * p, min ((k + 1) * p) t, "", none⟩) := by
  have h := getPartsAux_eq t p hp t 0 1 (by
    have := Nat.le_mul_of_pos_right t hp
    omega)
  simpa [getParts] using h

/-- Length of the `getParts` output: the exact ceiling of `t / p`. -/
theorem getParts_length (t p : ℕ) (hp : 0 < p) :
    (getParts t p).length = (t + p - 1) / p := by
  rw [getParts_eq t p hp]
  simp

theorem wrap64_eq_self (x : ℤ) (h1 : -(2 ^ 63) ≤ x) (h2 : x < 2 ^ 63) :
    wrap64 x = x := by
  unfold wrap64
  rw [Int.emod_eq_of_lt (by omega) (by omega)]
  ring

/-- On the overflow-free domain the wrap-aware planner terminates and
agrees with the unbounded model. -/
theorem getPartsWrapAux_eq (t p : ℕ) (hp : 0 < p) (hov : t + p ≤ 2 ^ 63) :
    ∀ fuel (s c : ℕ), s ≤ t → t ≤ s + fuel * p →
      getPartsWrapAux (t : ℤ) (p : ℤ) fuel (s : ℤ) (c : ℤ) =
        ((getPartsAux t p fuel s c).map castPart, true) := by
  intro fuel
  induction fuel with
  | zero =>
    intro s c hs hle
    have hns : ¬ ((s : ℤ) < (t : ℤ)) := by
      simp only [not_lt]
      exact_mod_cast (by omega : t ≤ s)
    simp [getPartsWrapAux, getPartsAux, hns]
  | succ fuel ih =>
    intro s c hs hle
    have hstep : (fuel + 1) * p = fuel * p + p := by ring
    by_cases hslt : s < t
    · have hcast : ((s : ℤ) < (t : ℤ)) := by exact_mod_cast hslt
      have hwrap : wrap64 ((s : ℤ) + (p : ℤ)) = ((s + p : ℕ) : ℤ) := by
        rw [show (s : ℤ) + (p : ℤ) = ((s + p : ℕ) : ℤ) by push_cast; ring]
        rw [wrap64_eq_self]
        · omega
        · exact_mod_cast (by omega : s + p < 2 ^ 63)
      have hclamp :
          (if (t : ℤ) < ((s + p : ℕ) : ℤ) then (t : ℤ) else ((s + p : ℕ) : ℤ)) =
            ((min (s + p) t : ℕ) : ℤ) := by
        by_cases hc : t < s + p
        · rw [if_pos (by exact_mod_cast hc), min_eq_right (le_of_lt hc)]
        · rw [if_neg (by exact_mod_cast hc), min_eq_left (by omega)]
      simp only [getPartsWrapAux, if_pos hcast, getPartsAux, if_pos hslt]
      rw [hwrap, hclamp]
      rw [show ((c : ℤ) + 1) = ((c + 1 : ℕ) : ℤ) by push_cast; ring]
      rw [ih (min (s + p) t) (c + 1) (by omega) (by omega)]
      simp [castPart]
    · have hns : ¬ ((s : ℤ) < (t : ℤ)) := by exact_mod_cast hslt
      simp [getPartsWrapAux, getPartsAux, hslt, hns]

theorem expUpAux_spec (n : ℕ) :
    ∀ fuel d, 0 < d → d ≤ n → n < d * 2 ^ fuel →
      d * 2 ^ expUpAux n d fuel ≤ n ∧ n < d * 2 ^ (expUpAux n d fuel + 1) := by
  intro fuel
  induction fuel with
  | zero =>
    intro d hd hdn hlt
    rw [pow_zero, mul_one] at hlt
    omega
  | succ fuel ih =>
    intro d hd hdn hlt
    by_cases h2 : 2 * d ≤ n
    · have hfuel : n < 2 * d * 2 ^ fuel := by
        have he : 2 * d * 2 ^ fuel = d * 2 ^ (fuel + 1) := by ring
        omega
      have hih := ih (2 * d) (by omega) h2 hfuel
      simp only [expUpAux, if_pos h2]
      constructor
      · have he : d * 2 ^ (expUpAux n (2 * d) fuel + 1) =
            2 * d * 2 ^ expUpAux n (2 * d) fuel := by ring
        rw [he]
        exact hih.1
      · have he : d * 2 ^ (expUpAux n (2 * d) fuel + 1 + 1) =
            2 * d * 2 ^ (expUpAux n (2 * d) fuel + 1) := by ring
        rw [he]
        exact hih.2
    · simp only [expUpAux, if_neg h2]
      push_neg at h2
      constructor
      · simpa using hdn
      · have he : d * 2 ^ (0 + 1) = 2 * d := by ring
        omega

theorem expDownAux_spec (d : ℕ) :
    ∀ fuel n, 0 < n → n < d → d ≤ n * 2 ^ fuel →
      d ≤ n * 2 ^ expDownAux d n fuel ∧ n * 2 ^ expDownAux d n fuel < 2 * d := by
  intro fuel
  induction fuel with
  | zero =>
    intro n hn hnd hle
    rw [pow_zero, mul_one] at hle
    omega
  | succ fuel ih =>
    intro n hn hnd hle
    simp only [expDownAux, if_pos hnd]
    by_cases h2 : 2 * n < d
    · have hfuel : d ≤ 2 * n * 2 ^ fuel := by
        have he : 2 * n * 2 ^ fuel = n * 2 ^ (fuel + 1) := by ring
        omega
      have hih := ih (2 * n) (by omega) h2 hfuel
      constructor
      · have he : n * 2 ^ (expDownAux d (2 * n) fuel + 1) =
            2 * n * 2 ^ expDownAux d (2 * n) fuel := by ring
        rw [he]
        exact hih.1
      · have he : n * 2 ^ (expDownAux d (2 * n) fuel + 1) =
            2 * n * 2 ^ expDownAux d (2 * n) fuel := by ring
        rw [he]
        exact hih.2
    · have h0 : expDownAux d (2 * n) fuel = 0 := by
        cases fuel with
        | zero => rfl
        | succ f => simp [expDownAux, h2]
      rw [h0]
      push_neg at h2
      have he : n * 2 ^ (0 + 1) = 2 * n := by ring
      omega

theorem qexp_spec (q : ℚ) (hq : 0 < q) :
    (2 : ℚ) ^ qexp q ≤ q ∧ q < (2 : ℚ) ^ (qexp q + 1) := by
  have hnum : 0 < q.num := Rat.num_pos.mpr hq
  have hden : 0 < q.den := q.pos
  have hn0 : 0 < q.num.toNat := by omega
  have hcast : ((q.num.toNat : ℤ) : ℚ) = (q.num : ℚ) := by
    rw [Int.toNat_of_nonneg (le_of_lt hnum)]
  have hqnd : q = (q.num.toNat : ℚ) / (q.den : ℚ) := by
    rw [show ((q.num.toNat : ℕ) : ℚ) = ((q.num.toNat : ℤ) : ℚ) by push_cast; ring,
      hcast, Rat.num_div_den]
  have hdpos : (0 : ℚ) < (q.den : ℚ) := by exact_mod_cast hden
  unfold qexp
  rw [if_neg (by omega)]
  by_cases hcase : q.den ≤ q.num.toNat
  · simp only [if_pos hcase]
    have hfuel : q.num.toNat < q.den * 2 ^ q.num.toNat :=
      lt_of_lt_of_le (Nat.lt_two_pow q.num.toNat)
        (Nat.le_mul_of_pos_left _ hden)
    obtain ⟨h1, h2⟩ := expUpAux_spec q.num.toNat q.num.toNat q.den hden hcase hfuel
    set E := expUpAux q.num.toNat q.den q.num.toNat with hE
    constructor
    · rw [zpow_natCast]
      conv_rhs => rw [hqnd]
      rw [le_div_iff₀ hdpos]
      rw [Nat.mul_comm q.den (2 ^ E)] at h1
      exact_mod_cast h1
    · rw [show ((E : ℤ) + 1) = ((E + 1 : ℕ) : ℤ) by push_cast; ring, zpow_natCast]
      conv_lhs => rw [hqnd]
      rw [div_lt_iff₀ hdpos]
      rw [Nat.mul_comm q.den (2 ^ (E + 1))] at h2
      exact_mod_cast h2
  · simp only [if_neg hcase]
    push_neg at hcase
    have hfuel : q.den ≤ q.num.toNat * 2 ^ q.den :=
      le_trans (le_of_lt (Nat.lt_two_pow q.den)) (Nat.le_mul_of_pos_left _ hn0)
    obtain ⟨h1, h2⟩ := expDownAux_spec q.den q.den q.num.toNat hn0 hcase hfuel
    set M := expDownAux q.den q.num.toNat q.den with hM
    have hppos : (0 : ℚ) < (2 : ℚ) ^ (M : ℕ) := by positivity
    constructor
    · rw [zpow_neg, zpow_natCast, inv_eq_one_div]
      conv_rhs => rw [hqnd]
      rw [div_le_div_iff₀ hppos hdpos, one_mul]
      exact_mod_cast h1
    · have hpow : (2 : ℚ) ^ (-(M : ℤ) + 1) = 2 / (2 : ℚ) ^ (M : ℕ) := by
        rw [zpow_add₀ (by norm_num : (2 : ℚ) ≠ 0), zpow_neg, zpow_natCast, zpow_one]
        ring
      rw [hpow]
      conv_lhs => rw [hqnd]
      rw [div_lt_div_iff₀ hdpos hppos]
      exact_mod_cast h2

theorem roundHTE_intCast (n : ℤ) : roundHTE (n : ℚ) = n := by
  unfold roundHTE
  rw [Int.floor_intCast]
  norm_num

theorem floor_le_roundHTE (x : ℚ) : ⌊x⌋ ≤ roundHTE x := by
  unfold roundHTE
  split_ifs <;> omega

theorem roundHTE_le_ceil (x : ℚ) : roundHTE x ≤ ⌈x⌉ := by
  unfold roundHTE
  split_ifs with h1 h2 h3
  · exact Int.floor_le_ceil x
  · have hlt : (⌊x⌋ : ℚ) < x := by linarith
    have := Int.lt_ceil.mpr hlt
    omega
  · exact Int.floor_le_ceil x
  · have hfrac : x - ⌊x⌋ = 1 / 2 := by linarith
    have hlt : (⌊x⌋ : ℚ) < x := by linarith
    have := Int.lt_ceil.mpr hlt
    omega

theorem sub_half_le_roundHTE (x : ℚ) : x - 1 / 2 ≤ (roundHTE x : ℚ) := by
  have hfl : ⌊x⌋ ≤ x := Int.floor_le x
  have hfu : x < ⌊x⌋ + 1 := Int.lt_floor_add_one x
  unfold roundHTE
  split_ifs with h1 h2 h3 <;> push_cast <;> linarith

theorem rnd_eq (q : ℚ) (hq : 0 < q) :
    rnd q = (roundHTE (q * 2 ^ ((52 : ℤ) - qexp q)) : ℚ) * 2 ^ (qexp q - 52) := by
  unfold rnd
  rw [if_neg (not_le.mpr hq)]

theorem rnd_le_grid (q : ℚ) (hq : 0 < q) (m : ℤ)
    (h : q ≤ (m : ℚ) * 2 ^ (qexp q - 52)) :
    rnd q ≤ (m : ℚ) * 2 ^ (qexp q - 52) := by
  rw [rnd_eq q hq]
  have hu : (0 : ℚ) < 2 ^ (qexp q - 52) := zpow_pos (by norm_num) _
  have hS : (0 : ℚ) < 2 ^ ((52 : ℤ) - qexp q) := zpow_pos (by norm_num) _
  have hqs : q * 2 ^ ((52 : ℤ) - qexp q) ≤ (m : ℚ) := by
    have hmul := mul_le_mul_of_nonneg_right h (le_of_lt hS)
    rwa [mul_assoc, ← zpow_add₀ (by norm_num : (2 : ℚ) ≠ 0),
      show qexp q - 52 + (52 - qexp q) = 0 by ring, zpow_zero, mul_one] at hmul
  have h1 : roundHTE (q * 2 ^ ((52 : ℤ) - qexp q)) ≤ m :=
    le_trans (roundHTE_le_ceil _) (Int.ceil_le.mpr hqs)
  exact mul_le_mul_of_nonneg_right (by exact_mod_cast h1) (le_of_lt hu)

theorem rnd_gt_grid (q : ℚ) (hq : 0 < q) (K : ℤ)
    (h : (K : ℚ) * 2 ^ (qexp q - 52) + 2 ^ (qexp q - 53) < q) :
    (K : ℚ) * 2 ^ (qexp q - 52) < rnd q := by
  rw [rnd_eq q hq]
  have hu : (0 : ℚ) < 2 ^ (qexp q - 52) := zpow_pos (by norm_num) _
  have hS : (0 : ℚ) < 2 ^ ((52 : ℤ) - qexp q) := zpow_pos (by norm_num) _
  have hscaled : (K : ℚ) + 1 / 2 < q * 2 ^ ((52 : ℤ) - qexp q) := by
    have hmul := mul_lt_mul_of_pos_right h hS
    rw [add_mul, mul_assoc, ← zpow_add₀ (by norm_num : (2 : ℚ) ≠ 0),
      show qexp q - 52 + (52 - qexp q) = 0 by ring, zpow_zero, mul_one,
      ← zpow_add₀ (by norm_num : (2 : ℚ) ≠ 0),
      show qexp q - 53 + (52 - qexp q) = -1 by ring] at hmul
    have hhalf : (2 : ℚ) ^ (-1 : ℤ) = 1 / 2 := by norm_num
    rwa [hhalf] at hmul
  have h1 : (K : ℚ) < (roundHTE (q * 2 ^ ((52 : ℤ) - qexp q)) : ℚ) := by
    have := sub_half_le_roundHTE (q * 2 ^ ((52 : ℤ) - qexp q))
    linarith
  have h2 : K + 1 ≤ roundHTE (q * 2 ^ ((52 : ℤ) - qexp q)) := by exact_mod_cast h1
  calc (K : ℚ) * 2 ^ (qexp q - 52)
      < ((K : ℚ) + 1) * 2 ^ (qexp q - 52) := by
        apply mul_lt_mul_of_pos_right _ hu
        linarith
  _ ≤ (roundHTE (q * 2 ^ ((52 : ℤ) - qexp q)) : ℚ) * 2 ^ (qexp q - 52) := by
        apply mul_le_mul_of_nonneg_right _ (le_of_lt hu)
        exact_mod_cast h2

theorem rnd_ge_pow (q : ℚ) (hq : 0 < q) : (2 : ℚ) ^ qexp q ≤ rnd q := by
  rw [rnd_eq q hq]
  have hb := (qexp_spec q hq).1
  have hS : (0 : ℚ) < 2 ^ ((52 : ℤ) - qexp q) := zpow_pos (by norm_num) _
  have hu : (0 : ℚ) < 2 ^ (qexp q - 52) := zpow_pos (by norm_num) _
  have h1 : (2 : ℚ) ^ (52 : ℤ) ≤ q * 2 ^ ((52 : ℤ) - qexp q) := by
    have hmul := mul_le_mul_of_nonneg_right hb (le_of_lt hS)
    rwa [← zpow_add₀ (by norm_num : (2 : ℚ) ≠ 0),
      show qexp q + (52 - qexp q) = 52 by ring] at hmul
  have h2 : (2 ^ 52 : ℤ) ≤ ⌊q * 2 ^ ((52 : ℤ) - qexp q)⌋ := by
    apply Int.le_floor.mpr
    calc ((2 ^ 52 : ℤ) : ℚ) = (2 : ℚ) ^ (52 : ℤ) := by norm_num
    _ ≤ q * 2 ^ ((52 : ℤ) - qexp q) := h1
  have h3 : (2 ^ 52 : ℤ) ≤ roundHTE (q * 2 ^ ((52 : ℤ) - qexp q)) :=
    le_trans h2 (floor_le_roundHTE _)
  calc (2 : ℚ) ^ qexp q = (2 : ℚ) ^ (52 : ℤ) * 2 ^ (qexp q - 52) := by
        rw [← zpow_add₀ (by norm_num : (2 : ℚ) ≠ 0)]
        congr 1
        ring
  _ ≤ (roundHTE (q * 2 ^ ((52 : ℤ) - qexp q)) : ℚ) * 2 ^ (qexp q - 52) := by
        apply mul_le_mul_of_nonneg_right _ (le_of_lt hu)
        calc (2 : ℚ) ^ (52 : ℤ) = ((2 ^ 52 : ℤ) : ℚ) := by norm_num
        _ ≤ _ := by exact_mod_cast h3

theorem rnd_pos (q : ℚ) (hq : 0 < q) : 0 < rnd q :=
  lt_of_lt_of_le (zpow_pos (by norm_num) _) (rnd_ge_pow q hq)

theorem rnd_grid_exact (q : ℚ) (hq : 0 < q) (m : ℤ)
    (h : q = (m : ℚ) * 2 ^ (qexp q - 52)) : rnd q = q := by
  rw [rnd_eq q hq]
  have hscaled : q * 2 ^ ((52 : ℤ) - qexp q) = (m : ℚ) := by
    nth_rewrite 1 [h]
    rw [mul_assoc, ← zpow_add₀ (by norm_num : (2 : ℚ) ≠ 0),
      show qexp q - 52 + (52 - qexp q) = 0 by ring, zpow_zero, mul_one]
  rw [hscaled, roundHTE_intCast, ← hscaled, mul_assoc,
    ← zpow_add₀ (by norm_num : (2 : ℚ) ≠ 0),
    show (52 : ℤ) - qexp q + (qexp q - 52) = 0 by ring, zpow_zero, mul_one]

theorem qexp_le (q : ℚ) (hq : 0 < q) (k : ℤ) (h : q < 2 ^ (k + 1)) : qexp q ≤ k := by
  have h1 := (qexp_spec q hq).1
  have h2 : (2 : ℚ) ^ qexp q < 2 ^ (k + 1) := lt_of_le_of_lt h1 h
  have h3 := (zpow_lt_zpow_iff_right₀ (by norm_num : (1 : ℚ) < 2)).mp h2
  omega

theorem qexp_ge (q : ℚ) (hq : 0 < q) (k : ℤ) (h : 2 ^ k ≤ q) : k ≤ qexp q := by
  have h2 := (qexp_spec q hq).2
  have h3 : (2 : ℚ) ^ k < 2 ^ (qexp q + 1) := lt_of_le_of_lt h h2
  have h4 := (zpow_lt_zpow_iff_right₀ (by norm_num : (1 : ℚ) < 2)).mp h3
  omega

theorem rnd_natCast (n : ℕ) (hn : n ≤ 2 ^ 53) : rnd (n : ℚ) = n := by
  rcases Nat.eq_zero_or_pos n with h0 | h0
  · subst h0
    simp [rnd]
  · have hq : (0 : ℚ) < n := by exact_mod_cast h0
    have hpow53 : ((2 ^ 53 : ℕ) : ℚ) = (2 : ℚ) ^ (53 : ℤ) := by norm_num
    have hle : qexp (n : ℚ) ≤ 53 := by
      apply qexp_le _ hq
      calc (n : ℚ) ≤ (2 : ℚ) ^ (53 : ℤ) := by
            rw [← hpow53]
            exact_mod_cast hn
      _ < 2 ^ ((53 : ℤ) + 1) :=
            (zpow_lt_zpow_iff_right₀ (by norm_num : (1 : ℚ) < 2)).mpr (by omega)
    by_cases h52 : qexp (n : ℚ) ≤ 52
    · have hto : (((52 - qexp (n : ℚ)).toNat : ℕ) : ℤ) = 52 - qexp (n : ℚ) :=
        Int.toNat_of_nonneg (by omega)
      apply rnd_grid_exact _ hq ((n : ℤ) * 2 ^ (52 - qexp (n : ℚ)).toNat)
      push_cast
      rw [← zpow_natCast (2 : ℚ) (52 - qexp (n : ℚ)).toNat, hto, mul_assoc,
        ← zpow_add₀ (by norm_num : (2 : ℚ) ≠ 0),
        show 52 - qexp (n : ℚ) + (qexp (n : ℚ) - 52) = 0 by ring, zpow_zero, mul_one]
    · have he53 : qexp (n : ℚ) = 53 := by omega
      have hup : (n : ℚ) ≤ ((2 ^ 53 : ℕ) : ℚ) := by exact_mod_cast hn
      have hlow : ((2 ^ 53 : ℕ) : ℚ) ≤ (n : ℚ) := by
        rw [hpow53]
        have h1 := (qexp_spec (n : ℚ) hq).1
        rwa [he53] at h1
      have hn53 : (n : ℚ) = ((2 ^ 53 : ℕ) : ℚ) := le_antisymm hup hlow
      apply rnd_grid_exact _ hq (2 ^ 52)
      rw [he53, hn53]
      push_cast
      norm_num

theorem rnd_le_one (q : ℚ) (hq : 0 < q) (h1 : q ≤ 1) : rnd q ≤ 1 := by
  rcases eq_or_lt_of_le h1 with heq | hlt
  · have hone : rnd ((1 : ℕ) : ℚ) = ((1 : ℕ) : ℚ) := rnd_natCast 1 (by norm_num)
    rw [heq]
    simp only [Nat.cast_one] at hone
    rw [hone]
  · have hc1 : ((2 ^ 53 : ℤ) : ℚ) = (2 : ℚ) ^ (53 : ℤ) := by norm_num
    have hcast : ((2 ^ 53 : ℤ) : ℚ) * 2 ^ (qexp q - 52) = 2 ^ (qexp q + 1) := by
      rw [hc1, ← zpow_add₀ (by norm_num : (2 : ℚ) ≠ 0)]
      congr 1
      ring
    have h2 := rnd_le_grid q hq (2 ^ 53) (by
      rw [hcast]
      exact le_of_lt (qexp_spec q hq).2)
    have he : qexp q ≤ -1 := by
      apply qexp_le q hq
      rw [show (-1 : ℤ) + 1 = 0 by ring, zpow_zero]
      exact hlt
    calc rnd q ≤ ((2 ^ 53 : ℤ) : ℚ) * 2 ^ (qexp q - 52) := h2
    _ = 2 ^ (qexp q + 1) := hcast
    _ ≤ 2 ^ (0 : ℤ) :=
          (zpow_le_zpow_iff_right₀ (by norm_num : (1 : ℚ) < 2)).mpr (by omega)
    _ = 1 := zpow_zero 2

theorem ceil_natDiv (t p : ℕ) (hp : 0 < p) :
    ⌈(t : ℚ) / (p : ℚ)⌉ = (((t + p - 1) / p : ℕ) : ℤ) := by
  have hp0 : (0 : ℚ) < (p : ℚ) := by exact_mod_cast hp
  rcases Nat.eq_zero_or_pos t with ht0 | ht0
  · subst ht0
    rw [show ((0 + p - 1) / p : ℕ) = 0 from Nat.div_eq_of_lt (by omega)]
    simp
  · set c := (t + p - 1) / p with hc
    have hcp : t ≤ c * p := by
      by_contra hcon
      push_neg at hcon
      have h1 : (c + 1) * p ≤ t + p - 1 := by
        have he : (c + 1) * p = c * p + p := by ring
        omega
      have h2 : c + 1 ≤ (t + p - 1) / p := (Nat.le_div_iff_mul_le hp).mpr h1
      omega
    have hlow : c * p < t + p := by
      have h1 : c * p ≤ t + p - 1 := Nat.div_mul_le_self _ _
      omega
    rw [Int.ceil_eq_iff]
    constructor
    · rw [show (((c : ℕ) : ℤ) : ℚ) - 1 < (t : ℚ) / (p : ℚ) ↔
          ((((c : ℕ) : ℤ) : ℚ) - 1) * p < t from lt_div_iff₀ hp0]
      have hcast : (c : ℚ) * p < (t : ℚ) + p := by exact_mod_cast hlow
      push_cast
      nlinarith
    · rw [div_le_iff₀ hp0]
      exact_mod_cast hcp

/-- Exactness of the rounded ceiling: for `totalSize ≤ 2^53` and any
positive `partSize`, the binary64 computation in `getNumberOfChunks`
produces the exact rational ceiling. -/
theorem ceil_fdiv (t p : ℕ) (ht2 : t ≤ 2 ^ 53) (hp : 0 < p) :
    ⌈fdiv (float64 t) (float64 p)⌉ = (((t + p - 1) / p : ℕ) : ℤ) := by
  have hp0 : (0 : ℚ) < (p : ℚ) := by exact_mod_cast hp
  have hprnd : 0 < rnd (p : ℚ) := rnd_pos _ hp0
  unfold fdiv float64
  rw [rnd_natCast t ht2, if_neg (ne_of_gt hprnd)]
  rcases Nat.eq_zero_or_pos t with ht0 | ht0
  · subst ht0
    rw [show ((0 + p - 1) / p : ℕ) = 0 from Nat.div_eq_of_lt (by omega)]
    rw [Nat.cast_zero, zero_div, rnd_zero]
    simp
  · by_cases hp53 : p ≤ 2 ^ 53
    · rw [rnd_natCast p hp53, ← ceil_natDiv t p hp]
      by_cases hdvd : p ∣ t
      · obtain ⟨k, hk⟩ := hdvd
        have hkle : k ≤ 2 ^ 53 := by
          have h1 : k ≤ p * k := Nat.le_mul_of_pos_left k hp
          omega
        have hq : (t : ℚ) / (p : ℚ) = (k : ℚ) := by
          rw [hk]
          push_cast
          rw [mul_comm, mul_div_assoc, div_self (ne_of_gt hp0), mul_one]
        rw [hq, rnd_natCast k hkle]
      · set k := t / p with hkdef
        have hdm := Nat.div_add_mod t p
        have hmlt : t % p < p := Nat.mod_lt t hp
        have hm1 : 1 ≤ t % p := by
          rcases Nat.eq_zero_or_pos (t % p) with h | h
          · exact absurd (Nat.dvd_of_mod_eq_zero h) hdvd
          · omega
        have hdm2 : k * p + t % p = t := by
          rw [hkdef, Nat.mul_comm]
          exact hdm
        have hkp : k * p < t := by omega
        have htk : t < (k + 1) * p := by
          have hc2 : (k + 1) * p = k * p + p := by ring
          omega
        set q : ℚ := (t : ℚ) / (p : ℚ) with hqdef
        have hq0 : 0 < q := div_pos (by exact_mod_cast ht0) hp0
        have hqk : (k : ℚ) < q := by
          rw [hqdef, lt_div_iff₀ hp0]
          exact_mod_cast hkp
        have hqk1 : q < (k : ℚ) + 1 := by
          rw [hqdef, div_lt_iff₀ hp0]
          rw [show ((k : ℚ) + 1) * p = (((k + 1) * p : ℕ) : ℚ) by push_cast; ring]
          exact_mod_cast htk
        have hceilq : ⌈q⌉ = (k : ℤ) + 1 := by
          rw [Int.ceil_eq_iff]
          constructor
          · push_cast
            linarith
          · push_cast
            linarith
        have hp2 : 2 ≤ p := by
          rcases Nat.lt_or_ge p 2 with h | h
          · have hp1 : p = 1 := by omega
            rw [hp1] at hdvd
            exact absurd (one_dvd t) hdvd
          · exact h
        have hk1le : (k : ℚ) + 1 ≤ 2 ^ (53 : ℤ) := by
          have hk2 : k ≤ t / 2 := by
            rw [hkdef]
            exact Nat.div_le_div_left hp2 (by omega)
          have hn : k + 1 ≤ 2 ^ 53 := by omega
          calc (k : ℚ) + 1 = ((k + 1 : ℕ) : ℚ) := by push_cast; ring
          _ ≤ ((2 ^ 53 : ℕ) : ℚ) := by exact_mod_cast hn
          _ = 2 ^ (53 : ℤ) := by norm_num
        have he52 : qexp q ≤ 52 := by
          apply qexp_le q hq0
          calc q < (k : ℚ) + 1 := hqk1
          _ ≤ 2 ^ (53 : ℤ) := hk1le
          _ = 2 ^ ((52 : ℤ) + 1) := by norm_num
        have hto : (((52 - qexp q).toNat : ℕ) : ℤ) = 52 - qexp q :=
          Int.toNat_of_nonneg (by omega)
        have hgridv : ∀ a : ℤ,
            ((a * 2 ^ (52 - qexp q).toNat : ℤ) : ℚ) * 2 ^ (qexp q - 52) = (a : ℚ) := by
          intro a
          push_cast
          rw [← zpow_natCast (2 : ℚ) (52 - qexp q).toNat, hto, mul_assoc,
            ← zpow_add₀ (by norm_num : (2 : ℚ) ≠ 0),
            show 52 - qexp q + (qexp q - 52) = 0 by ring, zpow_zero, mul_one]
        have hE := (qexp_spec q hq0).1
        have hqp : (p : ℚ) * q = (t : ℚ) := by
          rw [hqdef]
          field_simp
        have hp2e : (p : ℚ) * 2 ^ qexp q < 2 ^ (53 : ℤ) := by
          have h1 : (p : ℚ) * 2 ^ qexp q ≤ (t : ℚ) := by
            have hm := mul_le_mul_of_nonneg_left hE (le_of_lt hp0)
            rwa [hqp] at hm
          have h2 : (t : ℚ) ≤ 2 ^ (53 : ℤ) := by
            calc (t : ℚ) ≤ ((2 ^ 53 : ℕ) : ℚ) := by exact_mod_cast ht2
            _ = 2 ^ (53 : ℤ) := by norm_num
          rcases lt_or_eq_of_le (le_trans h1 h2) with h | h
          · exact h
          · exfalso
            have ht53 : (t : ℚ) = 2 ^ (53 : ℤ) := le_antisymm h2 (by rw [← h]; exact h1)
            have hqe : q = 2 ^ qexp q := by
              have hcalc : (p : ℚ) * q = (p : ℚ) * 2 ^ qexp q := by
                rw [hqp, ht53, ← h]
              exact mul_left_cancel₀ (ne_of_gt hp0) hcalc
            have he0 : 0 ≤ qexp q := by
              by_contra hneg
              push_neg at hneg
              have hlt1 : (2 : ℚ) ^ qexp q < 2 ^ (0 : ℤ) :=
                (zpow_lt_zpow_iff_right₀ (by norm_num : (1 : ℚ) < 2)).mpr (by omega)
              rw [zpow_zero] at hlt1
              have hple : (p : ℚ) ≤ 2 ^ (53 : ℤ) := by
                calc (p : ℚ) ≤ ((2 ^ 53 : ℕ) : ℚ) := by exact_mod_cast hp53
                _ = 2 ^ (53 : ℤ) := by norm_num
              nlinarith
            have htp : (t : ℚ) = ((p * 2 ^ (qexp q).toNat : ℕ) : ℚ) := by
              calc (t : ℚ) = (p : ℚ) * q := hqp.symm
              _ = (p : ℚ) * 2 ^ qexp q := congrArg (fun x => (p : ℚ) * x) hqe
              _ = ((p * 2 ^ (qexp q).toNat : ℕ) : ℚ) := by
                  push_cast
                  rw [← zpow_natCast (2 : ℚ) (qexp q).toNat,
                    Int.toNat_of_nonneg he0]
            have htp2 : t = p * 2 ^ (qexp q).toNat := by exact_mod_cast htp
            exact hdvd ⟨2 ^ (qexp q).toNat, htp2⟩
        have hgap : (k : ℚ) + 2 ^ (qexp q - 53) < q := by
          have h1 : (k : ℚ) + 1 / p ≤ q := by
            rw [hqdef, le_div_iff₀ hp0, add_mul, one_div,
              inv_mul_cancel₀ (ne_of_gt hp0)]
            rw [show (k : ℚ) * p + 1 = ((k * p + 1 : ℕ) : ℚ) by push_cast; ring]
            exact_mod_cast hkp
          have h2 : (2 : ℚ) ^ (qexp q - 53) < 1 / p := by
            have hm := mul_lt_mul_of_pos_right hp2e
              (zpow_pos (by norm_num : (0 : ℚ) < 2) (-53 : ℤ))
            rw [mul_assoc, ← zpow_add₀ (by norm_num : (2 : ℚ) ≠ 0),
              ← zpow_add₀ (by norm_num : (2 : ℚ) ≠ 0),
              show (53 : ℤ) + -53 = 0 by ring, zpow_zero,
              show qexp q + -53 = qexp q - 53 by ring] at hm
            rw [lt_div_iff₀ hp0, mul_comm]
            exact hm
          linarith
        have hlow := rnd_gt_grid q hq0 ((k : ℤ) * 2 ^ (52 - qexp q).toNat) (by
          rw [hgridv (k : ℤ)]
          exact_mod_cast hgap)
        rw [hgridv (k : ℤ)] at hlow
        have hup := rnd_le_grid q hq0 (((k : ℤ) + 1) * 2 ^ (52 - qexp q).toNat) (by
          rw [hgridv ((k : ℤ) + 1)]
          push_cast
          linarith)
        rw [hgridv ((k : ℤ) + 1)] at hup
        rw [hceilq, Int.ceil_eq_iff]
        constructor
        · push_cast
          push_cast at hlow
          linarith
        · push_cast
          push_cast at hup
          linarith
    · push_neg at hp53
      have hp2ge : (2 : ℚ) ^ (53 : ℤ) ≤ rnd (p : ℚ) := by
        have h53 : (2 : ℚ) ^ (53 : ℤ) ≤ (p : ℚ) := by
          calc (2 : ℚ) ^ (53 : ℤ) = ((2 ^ 53 : ℕ) : ℚ) := by norm_num
          _ ≤ (p : ℚ) := by exact_mod_cast (by omega : 2 ^ 53 ≤ p)
        have hqe := qexp_ge (p : ℚ) hp0 53 h53
        calc (2 : ℚ) ^ (53 : ℤ) ≤ (2 : ℚ) ^ qexp (p : ℚ) :=
              (zpow_le_zpow_iff_right₀ (by norm_num : (1 : ℚ) < 2)).mpr hqe
        _ ≤ rnd (p : ℚ) := rnd_ge_pow _ hp0
      have ht53 : (t : ℚ) ≤ 2 ^ (53 : ℤ) := by
        calc (t : ℚ) ≤ ((2 ^ 53 : ℕ) : ℚ) := by exact_mod_cast ht2
        _ = 2 ^ (53 : ℤ) := by norm_num
      have hq1 : (t : ℚ) / rnd (p : ℚ) ≤ 1 := by
        rw [div_le_one hprnd]
        linarith
      have hq0 : 0 < (t : ℚ) / rnd (p : ℚ) :=
        div_pos (by exact_mod_cast ht0) hprnd
      have hr1 : rnd ((t : ℚ) / rnd (p : ℚ)) ≤ 1 := rnd_le_one _ hq0 hq1
      have hr0 : 0 < rnd ((t : ℚ) / rnd (p : ℚ)) := rnd_pos _ hq0
      rw [show ((t + p - 1) / p : ℕ) = 1 from
        ceilDiv_one_of_le p t hp (by omega) (by omega)]
      rw [Int.ceil_eq_iff]
      constructor
      · push_cast
        linarith
      · push_cast
        linarith

/-! ## Claims -/

/-- C1: the download range planner is claimed to emit inclusive ranges
with `end = min(start + partSize - 1, totalSize - 1)`, consecutive, and
partitioning the file bytes.  The code instead initialises `end` to the
package constant `PartSize - 1` without clamping, advances later ends by
`partSize + 1`, and clamps to `totalSize` instead of `totalSize - 1`:
for a 15-byte file with the default part size, the single emitted range
is `[0, 10485759]` where the claim requires `[0, 14]`, and for a 25 MB
file the interior range ends at `start + partSize + 1` and the final one
at `totalSize`. -/
theorem C1_generateChunks_divergence :
    generateChunks 1 15 PartSize = [⟨0, 10485759, 0, none⟩] ∧
    ¬ (∀ c ∈ generateChunks 1 15 PartSize,
        c.endByte = min (c.startByte + PartSize - 1) (15 - 1)) ∧
    generateChunks 3 26214400 PartSize =
      [⟨0, 10485759, 0, none⟩, ⟨10485760, 20971521, 1, none⟩,
        ⟨20971522, 26214400, 2, none⟩] := by decide

/-- C2: the claim states the outstanding count is decremented only for
results carrying no error.  The download worker calls `wg.Done` after
publishing every result that got past the file open, errored or not
(src/unnamed/part_002:156): below, a chunk whose ranged GET fails is
published carrying its error, yet one `wg.Done` is performed, and the
coordinator then also resubmits the same chunk with the error cleared.
The upload coordinator, in contrast, matches the claim (no decrement on
an errored result). -/
theorem C2_download_decrement_on_error :
    (downloadChunkStep ⟨0, 14, 0, none⟩ none (some "network failure")).2 = 1 ∧
    (downloadChunkStep ⟨0, 14, 0, none⟩ none (some "network failure")).1 =
      [⟨0, 14, 0, some "network failure"⟩] ∧
    downloadReportStep ⟨0, 14, 0, some "network failure"⟩ [] = [⟨0, 14, 0, none⟩] ∧
    uploadReportStep ⟨1, 0, 14, "", some "network failure"⟩ [] 3 =
      ([⟨1, 0, 14, "", none⟩], 3) := by decide

/-- C3: the claim states each worker publishes exactly one result per
dequeued range and that an early sub-step failure suppresses the later
sub-steps.  In the source there is no `continue` after an error report,
so a part whose `partUploadInit` fails is published twice (once at the
failure, once unconditionally at the end, still carrying the error) and
both later sub-steps are still attempted. -/
theorem C3_processPart_extra_publications :
    ((processPartStep ⟨1, 0, 10485760, "", none⟩ (some "init failure")
        (.ok "") none).1) =
      [⟨1, 0, 10485760, "", some "init failure"⟩,
        ⟨1, 0, 10485760, "", some "init failure"⟩] ∧
    ((processPartStep ⟨1, 0, 10485760, "", none⟩ (some "init failure")
        (.ok "") none).1).length = 2 ∧
    (processPartStep ⟨1, 0, 10485760, "", none⟩ (some "init failure")
        (.ok "") none).2 =
      ["partUploadInit", "partUpload", "partReportUploaded"] := by decide

/-- C4 counterexample: quantified over every int64 input the claim
fails on the program.  At `totalSize = 2^63 - 1` (a legal sparse-file
size) and `partSize = 2^62` (server-supplied) the wrapping addition
`end = start + partSize` overflows on the second iteration to `-2^63`,
the `end > fileSize` clamp does not fire, and the loop keeps emitting
invalid ranges without terminating, although the exact ceiling is 2:
within the first four iterations the planner has emitted four ranges,
the second with `endByte = -2^63` below its `startByte`, and has not
terminated, so the output is not the claimed partition of
`[0, totalSize)` into `ceil(totalSize/partSize)` ranges. -/
theorem C4_getParts_partition_cex :
    (getPartsWrap (2 ^ 63 - 1) (2 ^ 62) 4).1 =
      [⟨1, 0, 2 ^ 62, "", none⟩, ⟨2, 2 ^ 62, -(2 ^ 63), "", none⟩,
        ⟨3, -(2 ^ 63), -(2 ^ 62), "", none⟩, ⟨4, -(2 ^ 62), 0, "", none⟩] ∧
    (getPartsWrap (2 ^ 63 - 1) (2 ^ 62) 4).2 = false ∧
    ((2 ^ 63 - 1 + 2 ^ 62 - 1) / 2 ^ 62 : ℕ) = 2 ∧
    ¬ (getPartsWrap (2 ^ 63 - 1) (2 ^ 62) 4).1.length ≤ 2 ∧
    ¬ (∀ q ∈ (getPartsWrap (2 ^ 63 - 1) (2 ^ 62) 4).1,
        q.startByte < q.endByte) := by decide

/-- C4 (amended): for every `totalSize ≥ 0` and `partSize > 0` on the
overflow-free int64 domain `totalSize + partSize ≤ 2^63` (which keeps
every `start + partSize` the loop computes inside int64 range), the
planner loop terminates, its wrap-aware int64 semantics coincide with
the exact model, and the planner emits exactly
`ceil(totalSize / partSize)` half-open ranges partitioning
`[0, totalSize)` contiguously with no gaps or overlaps, with 1-based
sequence numbers in increasing order, and emits nothing for
`totalSize = 0`: range `i` (0-based) is `[i * p, min((i+1) * p, t))`
with id `i + 1`, every range is nonempty, consecutive ranges are
adjacent, the first starts at 0 and the last ends at `totalSize`.
Beyond that domain the wrapping addition skips the clamp and the loop
diverges (see the counterexample). -/
theorem C4_getParts_partition (t p : ℕ) (hp : 0 < p) (hov : t + p ≤ 2 ^ 63) :
    (getPartsWrap (t : ℤ) (p : ℤ) t).2 = true ∧
    (getPartsWrap (t : ℤ) (p : ℤ) t).1 = (getParts t p).map castPart ∧
    (getParts t p).length = (t + p - 1) / p ∧
    (∀ i, ∀ h : i < (getParts t p).length,
        (getParts t p).get ⟨i, h⟩ =
          ⟨1 + i, i * p, min ((i + 1) * p) t, "", none⟩) ∧
    (t = 0 → getParts t p = []) ∧
    (∀ i, ∀ h : i < (getParts t p).length,
        ((getParts t p).get ⟨i, h⟩).startByte <
          ((getParts t p).get ⟨i, h⟩).endByte) ∧
    (∀ i, ∀ h : i + 1 < (getParts t p).length,
        ((getParts t p).get ⟨i + 1, h⟩).startByte =
          ((getParts t p).get ⟨i, by omega⟩).endByte) ∧
    (∀ h0 : 0 < (getParts t p).length,
        ((getParts t p).get ⟨0, h0⟩).startByte = 0 ∧
        ((getParts t p).get ⟨(getParts t p).length - 1, by omega⟩).endByte = t) := by
  have hw := getPartsWrapAux_eq t p hp hov t 0 1 (by omega) (by
    have h1 : t ≤ t * p := Nat.le_mul_of_pos_right t hp
    omega)
  simp only [Nat.cast_zero, Nat.cast_one] at hw
  have hw2 : getPartsWrap (t : ℤ) (p : ℤ) t = ((getParts t p).map castPart, true) := by
    unfold getPartsWrap getParts
    exact hw
  have hlen : (getParts t p).length = (t + p - 1) / p := getParts_length t p hp
  have hget : ∀ i, ∀ h : i < (getParts t p).length,
      (getParts t p).get ⟨i, h⟩ =
        ⟨1 + i, i * p, min ((i + 1) * p) t, "", none⟩ := by
    intro i h
    have hL := getParts_eq t p hp
    revert h
    rw [hL]
    intro h
    simp [List.get_eq_getElem, List.getElem_map, List.getElem_range]
  have hmul : ∀ i : ℕ, i + 1 ≤ (t + p - 1) / p → (i + 1) * p ≤ t + p - 1 := by
    intro i hi
    calc (i + 1) * p ≤ ((t + p - 1) / p) * p := Nat.mul_le_mul_right p hi
    _ ≤ t + p - 1 := Nat.div_mul_le_self _ _
  have hcov : t ≤ ((t + p - 1) / p) * p := by
    by_contra hcon
    push_neg at hcon
    have h1 : ((t + p - 1) / p + 1) * p ≤ t + p - 1 := by
      have : ((t + p - 1) / p + 1) * p = ((t + p - 1) / p) * p + p := by ring
      omega
    have h2 : (t + p - 1) / p + 1 ≤ (t + p - 1) / p :=
      (Nat.le_div_iff_mul_le hp).mpr h1
    omega
  refine ⟨by rw [hw2], by rw [hw2], hlen, hget, ?_, ?_, ?_, ?_⟩
  · intro ht0
    subst ht0
    rw [getParts_eq 0 p hp]
    have h0 : (0 + p - 1) / p = 0 := Nat.div_eq_of_lt (by omega)
    rw [h0]
    rfl
  · intro i h
    rw [hget i h]
    have hi : i + 1 ≤ (t + p - 1) / p := by omega
    have h1 := hmul i hi
    have h2 : (i + 1) * p = i * p + p := by ring
    have h3 : i * p < t := by omega
    have h4 : i * p < (i + 1) * p := by omega
    simp only []
    omega
  · intro i h
    rw [hget (i + 1) h, hget i (by omega)]
    have hi : i + 1 + 1 ≤ (t + p - 1) / p := by omega
    have h1 : (i + 1 + 1) * p ≤ t + p - 1 := hmul (i + 1) hi
    have h2 : (i + 1 + 1) * p = (i + 1) * p + p := by ring
    have h3 : (i + 1) * p < t := by omega
    simp only []
    omega
  · intro h0
    constructor
    · rw [hget 0 h0]
      simp
    · have hlast : (getParts t p).length - 1 < (getParts t p).length := by omega
      rw [hget _ hlast]
      have hne : 0 < (t + p - 1) / p := by omega
      have h1 : ((getParts t p).length - 1 + 1) = (t + p - 1) / p := by omega
      simp only [h1]
      have : min (((t + p - 1) / p) * p) t = t := min_eq_right hcov
      simpa using this

/-- C4 witness: a concrete instantiation of the claim theorem. -/
theorem C4_getParts_partition_witness :
    0 < 2 ∧ 5 + 2 ≤ 2 ^ 63 ∧ (getParts 5 2).length = (5 + 2 - 1) / 2 :=
  ⟨by decide, by decide,
    (C4_getParts_partition 5 2 (by decide) (by decide)).2.2.1⟩

/-- C5 counterexample: for a download with a single range the pool still
spawns 16 workers, not `min(16, 1) = 1` as claimed. -/
theorem C5_download_worker_count_cex :
    downloadWorkerCount 1 = 16 ∧ ¬ downloadWorkerCount 1 = min 16 1 := by
  constructor
  · rfl
  · simp [downloadWorkerCount]

/-- C5 (amended): the upload pool spawns `min(totalParts, 8)` workers,
while the download pool spawns 16 workers regardless of the number of
ranges. -/
theorem C5_worker_counts (t : ℤ) :
    uploadWorkerCount t = min t 8 ∧ downloadWorkerCount t = 16 := by
  constructor
  · simp only [uploadWorkerCount, intMin, min_def]
    split_ifs with h1 h2 h2 <;> omega
  · rfl

/-- C6 counterexample: for a 0-byte download the destination file is
never opened (creation happens only through the per-chunk
`os.OpenFile`), refuting the claim that the file is still created. -/
theorem C6_zero_size_download_cex : ¬ 0 < downloadDstOpenCount 0 := by
  have h0 : getNumberOfChunks 0 PartSize = 0 := getNumberOfChunks_zero PartSize
  simp [downloadDstOpenCount, downloadPlan, h0, generateChunks, generateChunksAux]

/-- C6 (amended): a download of a 0-byte resource plans zero ranges and
issues no ranged GET, but the destination file is not created, because
the destination is opened per range inside the worker loop (not once up
front) and there are no ranges. -/
theorem C6_zero_size_download :
    downloadPlan 0 = [] ∧ downloadRangedGetCount 0 = 0 ∧
      downloadDstOpenCount 0 = 0 := by
  have h0 : getNumberOfChunks 0 PartSize = 0 := getNumberOfChunks_zero PartSize
  refine ⟨?_, ?_, ?_⟩ <;>
    simp [downloadPlan, downloadRangedGetCount, downloadDstOpenCount, h0,
      generateChunks, generateChunksAux]

/-- C7 counterexample: at `totalSize = 2^53 + 1`, `partSize = 4` the
float64 computation loses the final part: converting `2^53 + 1` to
binary64 rounds it (ties-to-even) down to `2^53`, so the code returns
`2^51` while the exact ceiling, and the number of parts the upload
planner emits, is `2^51 + 1`. -/
theorem C7_getNumberOfChunks_cex :
    getNumberOfChunks (2 ^ 53 + 1) 4 = 2251799813685248 ∧
    ((2 ^ 53 + 1 + 4 - 1) / 4 : ℕ) = 2251799813685249 ∧
    (getParts (2 ^ 53 + 1) 4).length = 2251799813685249 ∧
    ¬ getNumberOfChunks (2 ^ 53 + 1) 4 = (((2 ^ 53 + 1 + 4 - 1) / 4 : ℕ) : ℤ) := by
  have he1 : qexp (9007199254740993 : ℚ) = 53 := by
    unfold qexp
    rw [if_neg (by norm_num [Rat.num_ofNat])]
    simp only [Rat.num_ofNat, Rat.den_ofNat, Int.toNat_ofNat]
    rw [if_pos (by norm_num)]
    decide
  have hrnd1 : rnd (9007199254740993 : ℚ) = 9007199254740992 := by
    unfold rnd
    rw [if_neg (by norm_num), he1]
    have hx : (9007199254740993 : ℚ) * 2 ^ ((52 : ℤ) - 53) =
        9007199254740993 / 2 := by norm_num
    rw [hx]
    have hround : roundHTE ((9007199254740993 : ℚ) / 2) = 4503599627370496 := by
      unfold roundHTE
      have hfl : ⌊(9007199254740993 : ℚ) / 2⌋ = 4503599627370496 := by norm_num
      rw [hfl]
      norm_num
    rw [hround]
    norm_num
  have hcast : (((2 ^ 53 + 1 : ℕ)) : ℚ) = (9007199254740993 : ℚ) := by norm_num
  have hc4 : (((4 : ℕ)) : ℚ) = (4 : ℚ) := by norm_num
  have h4 : rnd (4 : ℚ) = 4 := by
    have h := rnd_natCast 4 (by norm_num)
    simpa using h
  have hq : rnd (2251799813685248 : ℚ) = 2251799813685248 := by
    have h := rnd_natCast 2251799813685248 (by norm_num)
    simpa using h
  have hval : getNumberOfChunks (2 ^ 53 + 1) 4 = 2251799813685248 := by
    unfold getNumberOfChunks toInt64 mathCeil fdiv float64
    rw [hcast, hc4, hrnd1, h4, if_neg (by norm_num)]
    have hdiv : (9007199254740992 : ℚ) / 4 = 2251799813685248 := by norm_num
    rw [hdiv, hq]
    have hz : (2251799813685248 : ℚ) = ((2251799813685248 : ℤ) : ℚ) := by norm_num
    rw [hz, Int.ceil_intCast, Int.floor_intCast]
  have hnat : ((2 ^ 53 + 1 + 4 - 1) / 4 : ℕ) = 2251799813685249 := by norm_num
  have hlen : (getParts (2 ^ 53 + 1) 4).length = 2251799813685249 := by
    rw [getParts_length _ _ (by norm_num), hnat]
  refine ⟨hval, hnat, hlen, ?_⟩
  rw [hval, hnat]
  decide

/-- C7 (amended): for every `totalSize ≤ 2^53` and `partSize > 0`,
`getNumberOfChunks` equals the exact integer ceiling of
`totalSize / partSize` and equals the number of ranges the upload
planner emits; beyond `2^53` the binary64 conversion can round the size
and lose a part (see the counterexample). -/
theorem C7_getNumberOfChunks_ceil (t p : ℕ) (ht : t ≤ 2 ^ 53) (hp : 0 < p) :
    getNumberOfChunks t p = (((t + p - 1) / p : ℕ) : ℤ) ∧
    getNumberOfChunks t p = ((getParts t p).length : ℤ) := by
  have h1 : getNumberOfChunks t p = (((t + p - 1) / p : ℕ) : ℤ) := by
    unfold getNumberOfChunks toInt64 mathCeil
    rw [Int.floor_intCast]
    exact ceil_fdiv t p ht hp
  refine ⟨h1, ?_⟩
  rw [h1, getParts_length t p hp]

/-- C7 witness: the 25 MB / 10 MB scenario of the spec, three parts. -/
theorem C7_getNumberOfChunks_ceil_witness :
    26214400 ≤ 2 ^ 53 ∧ 0 < 10485760 ∧
      getNumberOfChunks 26214400 10485760 =
        (((26214400 + 10485760 - 1) / 10485760 : ℕ) : ℤ) :=
  ⟨by norm_num, by norm_num,
    (C7_getNumberOfChunks_ceil 26214400 10485760 (by norm_num) (by norm_num)).1⟩

/-- C8: an upload whose local file cannot be stated returns that error
with no network call issued; for contrast, any run that passes the stat
issues at least the session-init call. -/
theorem C8_Upload_stat_error (e : String)
    (init : Except String UploadInitResponse) (st : FileStat) :
    Upload (.error e) init = (.error e, []) ∧ (Upload (.ok st) init).2 ≠ [] := by
  constructor
  · rfl
  · cases init with
    | error e2 => simp [Upload]
    | ok info => simp [Upload]

/-- C9: `HasNextPage` (resp. `HasPrevPage`) is true exactly when the
parsed Link headers contain a "next" (resp. "prev") relation whose URL
yields a nonzero limit or offset; an unparsable Href yields 0 from both
`Limit` and `Offset`, a missing parameter parses to 0, and a failed
parse yields 0 apart from the int64 range clamps (so a next link with
limit=0 and offset=0 reports no next page). -/
theorem C9_pagination (p : Page) :
    (HasNextPage (some p) = true ↔
      ∃ l, lookupRel p.links "next" = some l ∧ ¬(l.Limit = 0 ∧ l.Offset = 0)) ∧
    (HasPrevPage (some p) = true ↔
      ∃ l, lookupRel p.links "prev" = some l ∧ ¬(l.Limit = 0 ∧ l.Offset = 0)) ∧
    (∀ l : Link, l.href = none → l.Limit = 0 ∧ l.Offset = 0) ∧
    goAtoi "" = 0 ∧
    (∀ s : String, (goParseInt64 s).2 = true →
      goAtoi s = 0 ∨ goAtoi s = 2 ^ 63 - 1 ∨ goAtoi s = -(2 ^ 63)) := by
  refine ⟨?_, ?_, ?_, rfl, ?_⟩
  · unfold HasNextPage NextPage generateListOptions
    cases hl : lookupRel p.links "next" with
    | none => simp [hl, IsZero]
    | some l =>
      simp [hl, IsZero]
      tauto
  · unfold HasPrevPage PrevPage generateListOptions
    cases hl : lookupRel p.links "prev" with
    | none => simp [hl, IsZero]
    | some l =>
      simp [hl, IsZero]
      tauto
  · intro l hl
    simp [Link.Limit, Link.Offset, intQueryField, hl]
  · intro s hs
    exact goParseInt64Chars_err_val s.data hs

/-- C9 witness: a concrete instantiation of the claim theorem. -/
theorem C9_pagination_witness : goAtoi "" = 0 :=
  (C9_pagination ⟨0, []⟩).2.2.2.1

/-- C10: `NewResponse` errors exactly when one of the rate-limit,
rate-remaining or total-matching-query headers is present but fails to
parse; the returned response pointer is never nil; with all four headers
absent the rate and total are zero-valued and the error is nil; and an
unparsable reset header is silently ignored, leaving the zero reset. -/
theorem C10_NewResponse (h : Headers) (links : List (String × Link)) :
    (((NewResponse h links).2).isSome = true ↔
      (hGet h "X-RateLimit-Limit" ≠ "" ∧
        (goParseInt64 (hGet h "X-RateLimit-Limit")).2 = true) ∨
      (hGet h "X-RateLimit-Remaining" ≠ "" ∧
        (goParseInt64 (hGet h "X-RateLimit-Remaining")).2 = true) ∨
      (hGet h "X-Total-Matching-Query" ≠ "" ∧
        (goParseInt64 (hGet h "X-Total-Matching-Query")).2 = true)) ∧
    ((NewResponse h links).1).isSome = true ∧
    (hGet h "X-RateLimit-Limit" = "" → hGet h "X-RateLimit-Remaining" = "" →
      hGet h "X-RateLimit-Reset" = "" → hGet h "X-Total-Matching-Query" = "" →
      NewResponse h links = (some ⟨⟨0, links⟩, some ⟨0, 0, none⟩⟩, none)) ∧
    ((goParseInt64 (hGet h "X-RateLimit-Reset")).2 = true →
      ((getRateLimit h).1).reset = none) := by
  refine ⟨?_, NewResponse_fst_isSome h links, ?_, getRateLimit_reset_none h⟩
  · rw [NewResponse_err_iff, getRateLimit_err_iff, getTotalMatchingQuery_err_iff]
    tauto
  · intro h1 h2 h3 h4
    have hr : getRateLimit h = (⟨0, 0, none⟩, none) := getRateLimit_absent h h1 h2 h3
    have ht : getTotalMatchingQuery h = (0, none) := by
      simp [getTotalMatchingQuery, h4]
    simp [NewResponse, hr, ht, NewPage, h4]

/-- C10 witness: a concrete instantiation of the claim theorem. -/
theorem C10_NewResponse_witness :
    ((NewResponse [("X-Total-Matching-Query", "1")] []).1).isSome = true :=
  (C10_NewResponse [("X-Total-Matching-Query", "1")] []).2.1

end SB
